import Mathlib

/-!
Verification of the multichannel Wiener filter oracle (`MWF.py`).

The source computes, for a stereo mixture and reference sources, per-source
power spectral densities and time-invariant spatial covariance matrices,
aggregates them into the mixture covariance, inverts it with a closed-form
regularized 2x2 formula, and applies the resulting Wiener gains.

Embedding choices:
* numpy complex numbers are modelled exactly by `Cq`, complex numbers with
  rational components; floating-point rounding is out of scope, but the
  one float-specific phenomenon the spec mentions (NaN/Inf from a zero
  divisor in complex division) is modelled by the predicate
  `invertFinite`: with finite inputs, numpy's complex division produces
  non-finite values exactly when the divisor is zero.
* numpy tensors indexed by (channel, frequency, time) become functions
  out of `Fin 2`, `Fin F`, `Fin T`; the channel count is fixed at 2,
  which is what `invert`'s explicit indexing assumes.
* the scipy STFT/ISTFT pair is external library code; `MWF` takes the
  forward and inverse transforms as explicit function arguments.
* python loops that accumulate with `+=` become `Finset` sums or list
  folds over the same index ranges.
-/

/-- A complex number with rational real and imaginary parts, the exact
model of a (finite) numpy complex value. -/
structure Cq where
  re : ℚ
  im : ℚ
deriving DecidableEq

namespace Cq

theorem ext : ∀ {z w : Cq}, z.re = w.re → z.im = w.im → z = w
  | ⟨_, _⟩, ⟨_, _⟩, rfl, rfl => rfl

instance : Zero Cq := ⟨⟨0, 0⟩⟩
instance : One Cq := ⟨⟨1, 0⟩⟩
instance : Add Cq := ⟨fun z w => ⟨z.re + w.re, z.im + w.im⟩⟩
instance : Neg Cq := ⟨fun z => ⟨-z.re, -z.im⟩⟩
instance : Sub Cq := ⟨fun z w => ⟨z.re - w.re, z.im - w.im⟩⟩
instance : Mul Cq := ⟨fun z w => ⟨z.re * w.re - z.im * w.im, z.re * w.im + z.im * w.re⟩⟩

@[simp] theorem zero_re : (0 : Cq).re = 0 := rfl
@[simp] theorem zero_im : (0 : Cq).im = 0 := rfl
@[simp] theorem one_re : (1 : Cq).re = 1 := rfl
@[simp] theorem one_im : (1 : Cq).im = 0 := rfl
@[simp] theorem add_re (z w : Cq) : (z + w).re = z.re + w.re := rfl
@[simp] theorem add_im (z w : Cq) : (z + w).im = z.im + w.im := rfl
@[simp] theorem neg_re (z : Cq) : (-z).re = -z.re := rfl
@[simp] theorem neg_im (z : Cq) : (-z).im = -z.im := rfl
@[simp] theorem sub_re (z w : Cq) : (z - w).re = z.re - w.re := rfl
@[simp] theorem sub_im (z w : Cq) : (z - w).im = z.im - w.im := rfl
@[simp] theorem mul_re (z w : Cq) : (z * w).re = z.re * w.re - z.im * w.im := rfl
@[simp] theorem mul_im (z w : Cq) : (z * w).im = z.re * w.im + z.im * w.re := rfl

instance addCommGroup : AddCommGroup Cq where
  add := (· + ·)
  zero := 0
  neg := Neg.neg
  sub := Sub.sub
  add_assoc := by intros; apply Cq.ext <;> simp [add_assoc]
  zero_add := by intros; apply Cq.ext <;> simp
  add_zero := by intros; apply Cq.ext <;> simp
  add_comm := by intros; apply Cq.ext <;> simp [add_comm]
  neg_add_cancel := by intros; apply Cq.ext <;> simp
  sub_eq_add_neg := by intros; apply Cq.ext <;> simp [sub_eq_add_neg]
  nsmul := nsmulRec
  zsmul := zsmulRec

instance commRing : CommRing Cq :=
  { Cq.addCommGroup with
    mul := (· * ·)
    one := 1
    left_distrib := by intros; apply Cq.ext <;> simp <;> ring
    right_distrib := by intros; apply Cq.ext <;> simp <;> ring
    zero_mul := by intros; apply Cq.ext <;> simp
    mul_zero := by intros; apply Cq.ext <;> simp
    mul_assoc := by intros; apply Cq.ext <;> simp <;> ring
    one_mul := by intros; apply Cq.ext <;> simp
    mul_one := by intros; apply Cq.ext <;> simp
    mul_comm := by intros; apply Cq.ext <;> simp <;> ring }

/-- The embedding of a real (rational) scalar as a complex value, as numpy
does when a real array meets a complex one. -/
def ofQ (q : ℚ) : Cq := ⟨q, 0⟩

@[simp] theorem ofQ_re (q : ℚ) : (ofQ q).re = q := rfl
@[simp] theorem ofQ_im (q : ℚ) : (ofQ q).im = 0 := rfl
@[simp] theorem ofQ_zero : ofQ 0 = 0 := rfl

theorem ofQ_eq_zero {q : ℚ} : ofQ q = 0 ↔ q = 0 := by
  constructor
  · intro h; exact congrArg Cq.re h
  · intro h; rw [h, ofQ_zero]

/-- Complex conjugate, the model of `np.conj`. -/
def conj (z : Cq) : Cq := ⟨z.re, -z.im⟩

/-- Squared modulus; `np.abs(z)**2` computed exactly. -/
def normSq (z : Cq) : ℚ := z.re * z.re + z.im * z.im

instance : Inv Cq := ⟨fun z => ⟨z.re / normSq z, -z.im / normSq z⟩⟩

instance : Div Cq := ⟨fun z w => z * w⁻¹⟩

@[simp] theorem inv_re (z : Cq) : z⁻¹.re = z.re / normSq z := rfl
@[simp] theorem inv_im (z : Cq) : z⁻¹.im = -z.im / normSq z := rfl

theorem div_def (z w : Cq) : z / w = z * w⁻¹ := rfl

theorem normSq_pos {z : Cq} (h : z ≠ 0) : 0 < normSq z := by
  rcases eq_or_ne z.re 0 with hre | hre
  · have him : z.im ≠ 0 := fun him => h (Cq.ext hre him)
    have h1 : 0 < z.im * z.im := mul_self_pos.mpr him
    have h2 : 0 ≤ z.re * z.re := mul_self_nonneg _
    unfold normSq; linarith
  · have h1 : 0 < z.re * z.re := mul_self_pos.mpr hre
    have h2 : 0 ≤ z.im * z.im := mul_self_nonneg _
    unfold normSq; linarith

theorem normSq_ne_zero {z : Cq} (h : z ≠ 0) : normSq z ≠ 0 :=
  ne_of_gt (normSq_pos h)

theorem inv_mul_self {z : Cq} (h : z ≠ 0) : z⁻¹ * z = 1 := by
  have hn : normSq z ≠ 0 := normSq_ne_zero h
  apply Cq.ext
  · show z.re / normSq z * z.re - -z.im / normSq z * z.im = 1
    field_simp
    unfold normSq
    ring
  · show z.re / normSq z * z.im + -z.im / normSq z * z.re = 0
    field_simp
    ring

end Cq

/-! ### 2x2 complex matrices and the closed-form inverter (`invert`, MWF.py lines 10-20) -/

/-- A 2x2 complex matrix, the last two axes of the numpy tensors; the
channel count is fixed at 2 as the closed-form inverter assumes. -/
abbrev Mat2 := Fin 2 → Fin 2 → Cq

/-- The 2x2 identity matrix (`np.eye(2)`). -/
def id2 : Mat2 := fun i j => if i = j then 1 else 0

/-- Standard 2x2 matrix product, written out entrywise. -/
def mat2Mul (A B : Mat2) : Mat2 :=
  fun i j => A i 0 * B 0 j + A i 1 * B 1 j

/-- Trace of a single 2x2 matrix. -/
def trace2 (M : Mat2) : Cq := M 0 0 + M 1 1

@[simp] theorem id2_00 : id2 0 0 = 1 := rfl
@[simp] theorem id2_01 : id2 0 1 = 0 := rfl
@[simp] theorem id2_10 : id2 1 0 = 0 := rfl
@[simp] theorem id2_11 : id2 1 1 = 1 := rfl

/-- The divisor `eps + M00*M11 - M01*M10` of `invert` (MWF.py line 14).
With finite entries, `invert`'s output contains a NaN or Inf exactly when
this complex divisor is zero, since the only division `invert` performs
is by this quantity. -/
def invertDenom (M : Mat2) (e : ℚ) : Cq :=
  Cq.ofQ e + M 0 0 * M 1 1 - M 0 1 * M 1 0

/-- All entries of `invert M e` are finite (no NaN/Inf): numpy complex
division `1.0 / z` of finite operands yields non-finite values exactly
when `z = 0`. -/
def invertFinite (M : Mat2) (e : ℚ) : Prop := invertDenom M e ≠ 0

instance (M : Mat2) (e : ℚ) : Decidable (invertFinite M e) :=
  inferInstanceAs (Decidable (invertDenom M e ≠ 0))

/-- The function `invert(M, eps)` of MWF.py lines 10-20: explicit 2x2 inversion with the
regularization scalar added to the determinant before the reciprocal.
`invDet = 1.0/(eps + M00*M11 - M01*M10)`, then
`inv00 = invDet*M11, inv01 = -invDet*M01, inv10 = -invDet*M10,
inv11 = invDet*M00`. In the source this is vectorized over a batch of
matrices; here it acts on one matrix and is mapped over batch indices. -/
def invert (M : Mat2) (e : ℚ) : Mat2 :=
  let invDet := (invertDenom M e)⁻¹
  ![![invDet * M 1 1, -invDet * M 0 1],
    ![-invDet * M 1 0, invDet * M 0 0]]

/-! ### The statistics estimator (MWF.py lines 43-83) -/

/-- The constant `eps = np.finfo(np.float).eps`, the double-precision machine epsilon,
whose exact value is `2 ** (-52)` (MWF.py line 30). -/
def epsM : ℚ := 1 / 2 ^ 52

/-- A spectrogram: complex tensor indexed by (channel, frequency, time),
the shape `(I, F, T)` of `X` in MWF.py line 37-38 with `I = 2`. -/
abbrev SpecGram (F T : ℕ) := Fin 2 → Fin F → Fin T → Cq

/-- Observed covariance of a source spectrogram (MWF.py lines 52-54):
`Rjj[f,t,i1,i2] = Yj[i1,f,t] * conj(Yj[i2,f,t])`. -/
def observedCov (F T : ℕ) (Y : SpecGram F T) : Fin F → Fin T → Mat2 :=
  fun f t i1 i2 => Y i1 f t * Cq.conj (Y i2 f t)

/-- Naive PSD estimate (MWF.py line 58): mean over the 2 channels of the
squared magnitude, `P0[f,t] = np.mean(np.abs(Yj)**2, axis=0)`. -/
def naiveP (F T : ℕ) (Y : SpecGram F T) : Fin F → Fin T → ℚ :=
  fun f t => (∑ c : Fin 2, Cq.normSq (Y c f t)) / 2

/-- Spatial covariance before regularization (MWF.py line 63):
`R[f] = np.mean(Rjj / (eps + P0[..., None, None]), axis=1)`, the mean over
time frames of the observed covariance weighted by `1/(eps + P0)`. -/
def spatialCov (F T : ℕ) (Rjj : Fin F → Fin T → Mat2)
    (P0 : Fin F → Fin T → ℚ) : Fin F → Mat2 :=
  fun f i1 i2 => (∑ t : Fin T, Rjj f t i1 i2 / Cq.ofQ (epsM + P0 f t)) / Cq.ofQ T

/-- The value `np.trace(R[name])` computed by MWF.py line 67 on the
`(F, 2, 2)` tensor `R[name]`. numpy's default `axis1 = 0, axis2 = 1` sums
the diagonal of the (frequency, first-channel) axes, producing a length-2
vector indexed by the remaining channel axis:
`trace[i2] = sum over k < min(F, 2) of R[k, k, i2]`. -/
def npTraceFreq (F : ℕ) (R : Fin F → Mat2) : Fin 2 → Cq :=
  fun i2 => ∑ k : Fin (min F 2),
    R (Fin.castLE (min_le_left F 2) k) (Fin.castLE (min_le_right F 2) k) i2

/-- The rescaling part of MWF.py line 67, `R[name] * I / np.trace(R[name])`
with `I = 2`: the `(2,)`-shaped trace vector broadcasts against the LAST
axis of the `(F, 2, 2)` tensor, so entry `(f, i1, i2)` is divided by
`trace[i2]`. -/
def rescaleNp (F : ℕ) (R : Fin F → Mat2) : Fin F → Mat2 :=
  fun f i1 i2 => R f i1 i2 * Cq.ofQ 2 / npTraceFreq F R i2

/-- Regularization of the spatial covariance (MWF.py lines 67-69): the
numpy rescaling followed by adding `eps * np.eye(2)` to every frequency. -/
def regularize (F : ℕ) (R : Fin F → Mat2) : Fin F → Mat2 :=
  fun f i1 i2 => rescaleNp F R f i1 i2 + (if i1 = i2 then Cq.ofQ epsM else 0)

/-- Refined PSD (MWF.py lines 79-83): starting from `P[name] = 0`, the loop
over channel pairs accumulates
`P[name] += 1./I * np.real(Rj_inv[:, i1, i2][:, None] * Rjj[..., i2, i1])`. -/
def refineP (F T : ℕ) (Rinv : Fin F → Mat2) (Rjj : Fin F → Fin T → Mat2) :
    Fin F → Fin T → ℚ :=
  fun f t => ∑ i1 : Fin 2, ∑ i2 : Fin 2,
    (1 / 2 : ℚ) * (Rinv f i1 i2 * Rjj f t i2 i1).re

/-- The whole per-source estimation pass (MWF.py lines 43-83): returns the
refined PSD `P[name]` and the regularized spatial covariance `R[name]`. -/
def sourceStats (F T : ℕ) (Y : SpecGram F T) :
    (Fin F → Fin T → ℚ) × (Fin F → Mat2) :=
  let Rjj := observedCov F T Y
  let P0 := naiveP F T Y
  let R := regularize F (spatialCov F T Rjj P0)
  let Rinv := fun f => invert (R f) epsM
  (refineP F T Rinv Rjj, R)

/-! ### Mixture covariance, Wiener gains and separation (MWF.py lines 85-130) -/

/-- Mixture covariance (MWF.py lines 87-89): starting from `Cxx = 0`, the
loop over sources accumulates `Cxx += P[name][..., None, None] * R[name][:, None, ...]`,
the scalar PSD times the spatial covariance matrix per (f, t) bin.
The argument is the list of per-source `(P, R)` pairs in source order. -/
def mixCov (F T : ℕ) (stats : List ((Fin F → Fin T → ℚ) × (Fin F → Mat2))) :
    Fin F → Fin T → Mat2 :=
  fun f t i1 i2 => (stats.map (fun s => Cq.ofQ (s.1 f t) * s.2 f i1 i2)).sum

/-- Wiener gain of one source (MWF.py lines 99-103): `SR = P[name]*R[name]`
and the loop over (i1, i2, i3) accumulates
`G[..., i1, i2] += SR[..., i1, i3] * invCxx[..., i3, i2]`. -/
def gainOf (F T : ℕ) (s : (Fin F → Fin T → ℚ) × (Fin F → Mat2))
    (invCxx : Fin F → Fin T → Mat2) : Fin F → Fin T → Mat2 :=
  fun f t i1 i2 => ∑ i3 : Fin 2, (Cq.ofQ (s.1 f t) * s.2 f i1 i3) * invCxx f t i3 i2

/-- Gain application (MWF.py lines 106-109): `Yj += G[..., i] * X[i, ..., None]`
for each channel `i`, then `np.rollaxis` puts the output channel first. -/
def applyGain (F T : ℕ) (G : Fin F → Fin T → Mat2) (X : SpecGram F T) :
    SpecGram F T :=
  fun c f t => ∑ i : Fin 2, G f t c i * X i f t

/-- The value stored for one estimate: either a plain scalar (the python
int `0` that `accompaniment_source` starts as and keeps if nothing is
added) or a 2-channel time-domain signal, a list of (left, right) sample
pairs. -/
inductive NpArr where
  | scalar (x : ℚ)
  | sig (l : List (ℚ × ℚ))
deriving DecidableEq

/-- numpy broadcasting addition for the shapes MWF actually adds: a scalar
broadcasts over a signal; two signals add elementwise (`List.zipWith` agrees
with numpy elementwise addition whenever the lengths are equal, and MWF only
ever adds equal-length signals). -/
def NpArr.add : NpArr → NpArr → NpArr
  | .scalar a, .scalar b => .scalar (a + b)
  | .scalar a, .sig l => .sig (l.map fun p => (a + p.1, a + p.2))
  | .sig l, .scalar b => .sig (l.map fun p => (p.1 + b, p.2 + b))
  | .sig l, .sig m => .sig (List.zipWith (fun p q => (p.1 + q.1, p.2 + q.2)) l m)

/-- Whether `a` is a signal of exactly `n` (stereo) samples. -/
def NpArr.isSigLen (a : NpArr) (n : ℕ) : Bool :=
  match a with
  | .sig l => l.length == n
  | .scalar _ => false

/-- Sum of a list of arrays, starting from the scalar `0` exactly as the
`accompaniment_source = 0; accompaniment_source += ...` accumulator does. -/
def npSum (l : List NpArr) : NpArr := l.foldl NpArr.add (NpArr.scalar 0)

/-- A track as the core consumes it: the stereo mixture (a list of
(left, right) sample pairs) and the ordered name-to-audio mapping of the
reference sources. python dicts preserve insertion order and have distinct
keys; the distinct-key invariant is assumed where theorems need it. -/
structure Track where
  audio : List (ℚ × ℚ)
  sources : List (String × List (ℚ × ℚ))

/-- Body of the separation loop (MWF.py lines 97-119) for one source:
append the estimate to the ordered estimates mapping, and accumulate it
into the accompaniment unless the source is named "vocals". -/
def sepStep {α : Type} (e : String × α → NpArr)
    (acc : List (String × NpArr) × NpArr) (s : String × α) :
    List (String × NpArr) × NpArr :=
  (acc.1 ++ [(s.1, e s)], if s.1 ≠ "vocals" then acc.2.add (e s) else acc.2)

/-- The full pipeline `MWF(track)` (MWF.py lines 23-130). The scipy STFT
and ISTFT are external library code and enter as the function arguments
`stft` (applied per channel to the mixture and to every source, MWF.py
lines 37 and 46) and `istft` (returning the time-major stereo signal
`istft(Yj)[1].T`, MWF.py line 112). `N = track.audio.shape[0]` and every
estimate is truncated to its first `N` samples (`[:N, :]`). The returned
value is the ordered `estimates` mapping with the derived "accompaniment"
entry appended last. -/
def MWF (F T : ℕ) (stft : List (ℚ × ℚ) → SpecGram F T)
    (istft : SpecGram F T → List (ℚ × ℚ)) (track : Track) :
    List (String × NpArr) :=
  let N := track.audio.length
  let X := stft track.audio
  let stats := track.sources.map (fun s => (s.1, sourceStats F T (stft s.2)))
  let invCxx := fun f t => invert (mixCov F T (stats.map Prod.snd) f t) epsM
  let r := stats.foldl
    (sepStep (fun s => NpArr.sig ((istft (applyGain F T (gainOf F T s.2 invCxx) X)).take N)))
    ([], NpArr.scalar 0)
  r.1 ++ [("accompaniment", r.2)]

/-! ### Characterization of the separation loop -/

/-- The estimate MWF produces for one source, as a standalone value: the
Wiener-filtered mixture spectrogram, inverse-transformed and truncated to
the mixture's sample count. -/
def estPipe (F T : ℕ) (stft : List (ℚ × ℚ) → SpecGram F T)
    (istft : SpecGram F T → List (ℚ × ℚ)) (track : Track)
    (s : String × List (ℚ × ℚ)) : NpArr :=
  NpArr.sig ((istft (applyGain F T
    (gainOf F T (sourceStats F T (stft s.2))
      (fun f t => invert (mixCov F T
        (track.sources.map (fun u => sourceStats F T (stft u.2))) f t) epsM))
    (stft track.audio))).take track.audio.length)

theorem sepFold_eq {α : Type} (e : String × α → NpArr) (l : List (String × α))
    (acc : List (String × NpArr)) (a0 : NpArr) :
    l.foldl (sepStep e) (acc, a0) =
      (acc ++ l.map (fun s => (s.1, e s)),
       ((l.map (fun s => (s.1, e s))).filter (fun p => p.1 != "vocals")).foldl
         (fun a p => a.add p.2) a0) := by
  induction l generalizing acc a0 with
  | nil => simp
  | cons s l ih =>
    simp only [List.foldl_cons, List.map_cons, List.filter_cons]
    rw [show sepStep e (acc, a0) s =
      (acc ++ [(s.1, e s)], if s.1 ≠ "vocals" then a0.add (e s) else a0) from rfl]
    rw [ih]
    by_cases h : s.1 = "vocals"
    · simp [h]
    · simp [h]

/-- Unfolding of `MWF` through the separation loop: the output is the list
of per-source estimates in source order, followed by the "accompaniment"
entry, which is the accumulated sum of the non-"vocals" estimates. -/
theorem MWF_eq (F T : ℕ) (stft : List (ℚ × ℚ) → SpecGram F T)
    (istft : SpecGram F T → List (ℚ × ℚ)) (track : Track) :
    MWF F T stft istft track =
      track.sources.map (fun s => (s.1, estPipe F T stft istft track s)) ++
        [("accompaniment",
          npSum ((((track.sources.map
              (fun s => (s.1, estPipe F T stft istft track s))).filter
            (fun p => p.1 != "vocals"))).map Prod.snd))] := by
  simp only [MWF]
  rw [sepFold_eq]
  simp only [List.nil_append, npSum, List.foldl_map]
  simp only [estPipe, List.map_map]
  rfl

/-! ### Claims about the inverter -/

/-- C6: for every invertible 2x2 complex matrix `M` (nonzero determinant),
the product `invert(M, 0) @ M` is the 2x2 identity matrix. -/
theorem c6_inverter_left_inverse (M : Mat2)
    (h : M 0 0 * M 1 1 - M 0 1 * M 1 0 ≠ 0) :
    mat2Mul (invert M 0) M = id2 := by
  have hd : invertDenom M 0 ≠ 0 := by
    unfold invertDenom
    simpa using h
  have key := Cq.inv_mul_self hd
  rw [show invertDenom M 0 = M 0 0 * M 1 1 - M 0 1 * M 1 0 by
    unfold invertDenom; simp] at key
  funext i j
  fin_cases i <;> fin_cases j <;>
    simp only [mat2Mul, invert, invertDenom, Cq.ofQ_zero, zero_add,
      Matrix.cons_val_zero, Matrix.cons_val_one,
      Matrix.head_cons, Fin.isValue, Fin.zero_eta, Fin.mk_one,
      id2_00, id2_01, id2_10, id2_11]
  case h.h.«0».«0» => linear_combination key
  case h.h.«1».«1» => linear_combination key
  all_goals ring

/-- A concrete invertible matrix with complex entries for the C6 witness:
its determinant is `-1`. -/
def mInv : Mat2 := ![![⟨1, 2⟩, ⟨0, 1⟩], ![⟨3, 0⟩, ⟨1, 1⟩]]

theorem c6_inverter_left_inverse_witness : mat2Mul (invert mInv 0) mInv = id2 :=
  c6_inverter_left_inverse mInv (by with_unfolding_all decide)

/-- C7: for every singular matrix (zero determinant) and every `eps > 0`,
`invert` runs (it is total) and its divisor is nonzero, so the result
contains no NaN and no Inf. -/
theorem c7_singular_input_finite (M : Mat2) (e : ℚ)
    (hdet : M 0 0 * M 1 1 - M 0 1 * M 1 0 = 0) (he : 0 < e) :
    invertFinite M e := by
  unfold invertFinite invertDenom
  have hsum : Cq.ofQ e + M 0 0 * M 1 1 - M 0 1 * M 1 0 = Cq.ofQ e := by
    linear_combination hdet
  rw [hsum]
  simp only [ne_eq, Cq.ofQ_eq_zero]
  exact ne_of_gt he

/-- A concrete singular matrix (rank one, determinant zero). -/
def mSing : Mat2 := ![![1, 1], ![1, 1]]

theorem c7_singular_input_finite_witness : invertFinite mSing 1 :=
  c7_singular_input_finite mSing 1 (by with_unfolding_all decide) one_pos

/-- A nonsingular matrix whose determinant is exactly `-1`, cancelling the
regularizer `eps = 1`. -/
def mC9 : Mat2 := ![![Cq.ofQ (-1), 0], ![0, 1]]

/-- C9: the `eps` regularization does not make every `invert` call finite:
there is a nonsingular matrix and an `eps > 0` whose determinant equals
`-eps`, so the divisor `eps + det` is exactly zero and numpy's complex
division produces non-finite values. -/
theorem c9_eps_can_cancel :
    ∃ (M : Mat2) (e : ℚ),
      M 0 0 * M 1 1 - M 0 1 * M 1 0 ≠ 0 ∧ 0 < e ∧ ¬ invertFinite M e :=
  ⟨mC9, 1, by with_unfolding_all decide, one_pos, by with_unfolding_all decide⟩

/-! ### Claim C1: the trace rescaling -/

/-- A concrete 2-frequency, 1-frame source spectrogram: channel 0 holds 1
at frequency 0 and 2 at frequency 1; channel 1 holds 1 everywhere. -/
def yEx : SpecGram 2 1 :=
  fun c f _ => if c = 0 then (if f = 0 then 1 else Cq.ofQ 2) else 1

set_option maxRecDepth 100000 in
/-- C1 (code bug): the rescaling `R[name] * I / np.trace(R[name])` of
MWF.py line 67 does NOT make `trace(R[f]) = I`: `np.trace`'s default axes
on the `(F, 2, 2)` tensor mix frequencies and channels. At the spatial
covariance computed from `yEx`, the rescaled matrix at frequency 0 has
trace different from `I = 2`. -/
theorem c1_rescale_breaks_trace :
    trace2 (rescaleNp 2
      (spatialCov 2 1 (observedCov 2 1 yEx) (naiveP 2 1 yEx)) 0) ≠ Cq.ofQ 2 := by
  with_unfolding_all decide

/-! ### Claim C3: the refined PSD formula -/

theorem Cq.re_sum_fin2 (g : Fin 2 → Cq) :
    (∑ i : Fin 2, g i).re = ∑ i : Fin 2, (g i).re := by
  simp [Fin.sum_univ_two]

/-- C3: the observed covariance is `Y[i1,f,t] * conj(Y[i2,f,t])` per
channel pair, and the refined PSD returned by the estimator satisfies
`P[f,t] = (1/I) * Re(sum over (i1,i2) of Rinv[f,i1,i2] * Rjj[f,t,i2,i1])`
with `I = 2` and `Rinv` the eps-regularized inverse of the regularized
spatial covariance. -/
theorem c3_refined_psd (F T : ℕ) (Y : SpecGram F T) (f : Fin F) (t : Fin T) :
    (∀ i1 i2, observedCov F T Y f t i1 i2 = Y i1 f t * Cq.conj (Y i2 f t)) ∧
    (sourceStats F T Y).1 f t =
      (1 / 2 : ℚ) * (∑ i1 : Fin 2, ∑ i2 : Fin 2,
        invert (regularize F
            (spatialCov F T (observedCov F T Y) (naiveP F T Y)) f) epsM i1 i2 *
          observedCov F T Y f t i2 i1).re := by
  constructor
  · intro i1 i2; rfl
  · simp only [sourceStats]
    simp only [refineP, Fin.sum_univ_two, Cq.add_re]
    ring

/-! ### Fixtures: a minimal concrete transform pair and tracks -/

/-- A toy forward transform for one-sample signals with one frequency bin
and one frame: every spectrogram entry is 1. -/
def stW : List (ℚ × ℚ) → SpecGram 1 1 := fun _ _ _ _ => 1

/-- A toy inverse transform producing a one-sample stereo signal from the
(0,0) bin of each channel. -/
def istW : SpecGram 1 1 → List (ℚ × ℚ) := fun Y => [((Y 0 0 0).re, (Y 1 0 0).re)]

/-- A one-sample track with a single source named "drums". -/
def trDrums : Track := ⟨[(1, 1)], [("drums", [(1, 1)])]⟩

/-- A one-sample track whose only source is named "vocals". -/
def trVoc : Track := ⟨[(1, 1)], [("vocals", [(1, 1)])]⟩

/-! ### Claim C5: accompaniment and keys of the returned mapping -/

/-- C5: the returned mapping holds every source name in order followed by
the "accompaniment" key, and the accompaniment entry equals the sum of the
returned per-source estimates whose name is not "vocals" (`npSum` adds
signals elementwise; the sum of no signals is the scalar 0 the accumulator
starts as). -/
theorem c5_accompaniment_sum (F T : ℕ) (stft : List (ℚ × ℚ) → SpecGram F T)
    (istft : SpecGram F T → List (ℚ × ℚ)) (track : Track) :
    (MWF F T stft istft track).map Prod.fst
        = track.sources.map Prod.fst ++ ["accompaniment"] ∧
      (MWF F T stft istft track).getLast? = some ("accompaniment",
        npSum ((((MWF F T stft istft track).dropLast).filter
          (fun p => p.1 != "vocals")).map Prod.snd)) := by
  rw [MWF_eq]
  constructor
  · simp [List.map_map, Function.comp]
  · rw [List.getLast?_concat, List.dropLast_concat]

/-! ### Claim C10: accompaniment when no source is named "vocals" -/

/-- C10: the vocal exclusion is keyed on the literal name "vocals": on a
track with no source of that name, the accompaniment entry is the sum of
ALL returned per-source estimates. -/
theorem c10_accompaniment_without_vocals (F T : ℕ)
    (stft : List (ℚ × ℚ) → SpecGram F T) (istft : SpecGram F T → List (ℚ × ℚ))
    (track : Track) (h : ∀ p ∈ track.sources, p.1 ≠ "vocals") :
    (MWF F T stft istft track).getLast? = some ("accompaniment",
      npSum (((MWF F T stft istft track).dropLast).map Prod.snd)) := by
  rw [MWF_eq, List.getLast?_concat, List.dropLast_concat]
  have hf : (track.sources.map
        (fun s => (s.1, estPipe F T stft istft track s))).filter
        (fun p => p.1 != "vocals") =
      track.sources.map (fun s => (s.1, estPipe F T stft istft track s)) := by
    rw [List.filter_eq_self]
    intro p hp
    obtain ⟨s, hs, rfl⟩ := List.mem_map.mp hp
    simpa using h s hs
  rw [hf]

theorem c10_accompaniment_without_vocals_witness :
    (MWF 1 1 stW istW trDrums).getLast? = some ("accompaniment",
      npSum (((MWF 1 1 stW istW trDrums).dropLast).map Prod.snd)) :=
  c10_accompaniment_without_vocals 1 1 stW istW trDrums (by decide)

/-! ### Claim C2: gains and estimates, stated in the spec's form -/

/-- The mixture covariance as the spec words it (section 4.4): the sum over
sources of `PSD[name][f,t] * SpatialCovariance[name][f]`. -/
def specMixCov (F T : ℕ) (stft : List (ℚ × ℚ) → SpecGram F T) (track : Track) :
    Fin F → Fin T → Mat2 :=
  fun f t i1 i2 => (track.sources.map (fun s =>
    Cq.ofQ ((sourceStats F T (stft s.2)).1 f t) *
      (sourceStats F T (stft s.2)).2 f i1 i2)).sum

/-- The Wiener gain as the spec words it: the 2x2 matrix product of
`SourceCov[f,t] = PSD[f,t] * SpatialCovariance[f]` with the eps-regularized
inverse of the mixture covariance. -/
def specGain (F T : ℕ) (stft : List (ℚ × ℚ) → SpecGram F T) (track : Track)
    (src : String × List (ℚ × ℚ)) : Fin F → Fin T → Mat2 :=
  fun f t => mat2Mul
    (fun i j => Cq.ofQ ((sourceStats F T (stft src.2)).1 f t) *
      (sourceStats F T (stft src.2)).2 f i j)
    (invert (specMixCov F T stft track f t) epsM)

/-- The estimate spectrogram as the spec words it:
`EstimateSpectrogram[f,t,ch_out] = sum over ch_in of Gain[f,t,ch_out,ch_in]
* MixtureSpectrogram[ch_in,f,t]`. -/
def specEstimate (F T : ℕ) (stft : List (ℚ × ℚ) → SpecGram F T) (track : Track)
    (src : String × List (ℚ × ℚ)) : SpecGram F T :=
  fun c f t => ∑ i : Fin 2,
    specGain F T stft track src f t c i * stft track.audio i f t

theorem mixCov_spec (F T : ℕ) (stft : List (ℚ × ℚ) → SpecGram F T)
    (track : Track) :
    mixCov F T (track.sources.map (fun u => sourceStats F T (stft u.2))) =
      specMixCov F T stft track := by
  funext f t i1 i2
  unfold mixCov specMixCov
  rw [List.map_map]
  rfl

theorem gain_spec (F T : ℕ) (stft : List (ℚ × ℚ) → SpecGram F T)
    (track : Track) (src : String × List (ℚ × ℚ)) :
    applyGain F T (gainOf F T (sourceStats F T (stft src.2))
        (fun f t => invert (specMixCov F T stft track f t) epsM))
        (stft track.audio) =
      specEstimate F T stft track src := by
  funext c f t
  unfold applyGain specEstimate
  apply Finset.sum_congr rfl
  intro i _
  have hg : gainOf F T (sourceStats F T (stft src.2))
      (fun f t => invert (specMixCov F T stft track f t) epsM) f t c i =
      specGain F T stft track src f t c i := by
    unfold gainOf specGain mat2Mul
    rw [Fin.sum_univ_two]
  rw [hg]

theorem estPipe_spec (F T : ℕ) (stft : List (ℚ × ℚ) → SpecGram F T)
    (istft : SpecGram F T → List (ℚ × ℚ)) (track : Track)
    (src : String × List (ℚ × ℚ)) :
    estPipe F T stft istft track src =
      NpArr.sig ((istft (specEstimate F T stft track src)).take
        track.audio.length) := by
  unfold estPipe
  rw [mixCov_spec, gain_spec]

/-- C2: the k-th returned estimate is the source's name paired with the
inverse transform, truncated to the mixture length, of the estimate
spectrogram built from the spec's gain formula: the 2x2 product of the
source covariance with the eps-regularized inverse of the summed mixture
covariance, applied channel-wise to the mixture spectrogram. -/
theorem c2_gain_and_estimate (F T : ℕ) (stft : List (ℚ × ℚ) → SpecGram F T)
    (istft : SpecGram F T → List (ℚ × ℚ)) (track : Track) (k : ℕ)
    (src : String × List (ℚ × ℚ)) (h : track.sources[k]? = some src) :
    (MWF F T stft istft track)[k]? = some (src.1,
      NpArr.sig ((istft (specEstimate F T stft track src)).take
        track.audio.length)) := by
  have hk : k < track.sources.length := by
    by_contra hk
    rw [List.getElem?_eq_none (Nat.le_of_not_lt hk)] at h
    exact Option.noConfusion h
  rw [MWF_eq, List.getElem?_append_left (by simpa using hk),
    List.getElem?_map, h]
  simp only [Option.map_some']
  rw [estPipe_spec]

theorem c2_gain_and_estimate_witness :
    (MWF 1 1 stW istW trDrums)[0]? = some ("drums",
      NpArr.sig ((istW (specEstimate 1 1 stW trDrums ("drums", [(1, 1)]))).take
        trDrums.audio.length)) :=
  c2_gain_and_estimate 1 1 stW istW trDrums 0 ("drums", [(1, 1)]) rfl

/-! ### Claim C8: determinism -/

/-- C8: the pipeline is a pure function of its input; two invocations on
identical tracks produce identical output mappings, as there is no hidden
state in the embedding of the computation. -/
theorem c8_deterministic (F T : ℕ) (stft : List (ℚ × ℚ) → SpecGram F T)
    (istft : SpecGram F T → List (ℚ × ℚ)) (t1 t2 : Track) (h : t1 = t2) :
    MWF F T stft istft t1 = MWF F T stft istft t2 := by
  rw [h]

theorem c8_deterministic_witness :
    MWF 1 1 stW istW trDrums = MWF 1 1 stW istW trDrums :=
  c8_deterministic 1 1 stW istW trDrums trDrums rfl

/-! ### Claim C4: output shapes -/

theorem scalar_add_isSigLen (x : ℚ) (a : NpArr) (n : ℕ) :
    ((NpArr.scalar x).add a).isSigLen n = a.isSigLen n := by
  cases a <;> simp [NpArr.add, NpArr.isSigLen]

theorem foldl_add_keeps_len (l : List (String × NpArr)) (n : ℕ) :
    ∀ a : NpArr, a.isSigLen n = true → (∀ p ∈ l, p.2.isSigLen n = true) →
      (l.foldl (fun a p => a.add p.2) a).isSigLen n = true := by
  induction l with
  | nil => intro a ha _; simpa using ha
  | cons q l ih =>
    intro a ha hl
    simp only [List.foldl_cons]
    apply ih
    · have hq : q.2.isSigLen n = true := hl q (List.mem_cons_self q l)
      cases a with
      | scalar x => simp [NpArr.isSigLen] at ha
      | sig la =>
        cases hq2 : q.2 with
        | scalar x => rw [hq2] at hq; simp [NpArr.isSigLen] at hq
        | sig lb =>
          rw [hq2] at hq
          simp only [NpArr.isSigLen, beq_iff_eq] at ha hq ⊢
          simp [NpArr.add, ha, hq]
    · intro p hp; exact hl p (List.mem_cons_of_mem q hp)

/-- C4 amended: provided the inverse transform returns at least `N`
samples (scipy's ISTFT of an `N`-sample track's STFT does) and at least
one source is not named "vocals", every returned estimate, including
"accompaniment", is a signal of exactly `N` samples (each sample a stereo
pair, so the channel count is 2). Without the second proviso the
"accompaniment" entry is the python scalar `0`, not a signal; see the
counterexample. -/
theorem c4_estimate_shapes (F T : ℕ) (stft : List (ℚ × ℚ) → SpecGram F T)
    (istft : SpecGram F T → List (ℚ × ℚ)) (track : Track)
    (h1 : ∀ Y, track.audio.length ≤ (istft Y).length)
    (h2 : ∃ p ∈ track.sources, p.1 ≠ "vocals") :
    (MWF F T stft istft track).all
      (fun p => p.2.isSigLen track.audio.length) = true := by
  have hlen : ∀ s, (estPipe F T stft istft track s).isSigLen
      track.audio.length = true := by
    intro s
    unfold estPipe
    simp [NpArr.isSigLen, List.length_take, Nat.min_eq_left (h1 _)]
  rw [MWF_eq, List.all_append]
  refine Bool.and_eq_true_iff.mpr ⟨?_, ?_⟩
  · rw [List.all_eq_true]
    intro p hp
    obtain ⟨s, hs, rfl⟩ := List.mem_map.mp hp
    exact hlen s
  · simp only [List.all_cons, List.all_nil, Bool.and_true]
    obtain ⟨p0, hp0, hpv⟩ := h2
    have hql : ∀ p ∈ (track.sources.map
        (fun s => (s.1, estPipe F T stft istft track s))).filter
        (fun p => p.1 != "vocals"),
        p.2.isSigLen track.audio.length = true := by
      intro p hp
      obtain ⟨s, hs, rfl⟩ := List.mem_map.mp (List.mem_of_mem_filter hp)
      exact hlen s
    have hmem : (p0.1, estPipe F T stft istft track p0) ∈
        (track.sources.map
          (fun s => (s.1, estPipe F T stft istft track s))).filter
          (fun p => p.1 != "vocals") := by
      apply List.mem_filter.mpr
      exact ⟨List.mem_map.mpr ⟨p0, hp0, rfl⟩, by simpa using hpv⟩
    cases hcons : (track.sources.map
        (fun s => (s.1, estPipe F T stft istft track s))).filter
        (fun p => p.1 != "vocals") with
    | nil => rw [hcons] at hmem; exact absurd hmem (List.not_mem_nil _)
    | cons q rest =>
      unfold npSum
      rw [List.foldl_map, List.foldl_cons]
      apply foldl_add_keeps_len
      · rw [scalar_add_isSigLen]
        exact hql q (by rw [hcons]; exact List.mem_cons_self q rest)
      · intro p hp
        exact hql p (by rw [hcons]; exact List.mem_cons_of_mem q hp)

theorem c4_estimate_shapes_witness :
    (MWF 1 1 stW istW trDrums).all
      (fun p => p.2.isSigLen trDrums.audio.length) = true :=
  c4_estimate_shapes 1 1 stW istW trDrums (fun _ => Nat.le_refl 1)
    ⟨("drums", [(1, 1)]), by decide⟩

set_option maxRecDepth 100000 in
/-- C4 counterexample: on a track whose only source is named "vocals",
nothing is ever added to the accompaniment accumulator, so the returned
"accompaniment" is the scalar 0 - not a signal of `N` samples and 2
channels - even though the track is a valid one-sample stereo track. -/
theorem c4_vocals_only_scalar_accompaniment :
    ¬ (MWF 1 1 stW istW trVoc).all
        (fun p => p.2.isSigLen trVoc.audio.length) = true := by
  with_unfolding_all decide
